import Mathlib

/-!
# Verification of crawlifyrs against its specification

Shallow embedding of the parts of the `crawlifyrs` crawler that the
specification talks about: content hashing and deduplication
(`src/deduplication.rs`), the crawl frontier (`src/frontier.rs`), the HTTP
retry policy (`src/http.rs`), sitemap staging (`src/sitemap.rs`), NLP keyword
gating (`src/nlp.rs`), and page storage (`src/storage/models.rs`,
`src/crawler.rs`).

Machine integers are modelled as `Nat` with explicit reduction modulo `2^64`
where the Rust code works in `u64`.
-/

namespace Crawlify

/-! ## 64-bit arithmetic helpers -/

/-- The modulus of 64-bit words. -/
def M64 : Nat := 2 ^ 64

/-- 64-bit wrapping addition. -/
def wadd (a b : Nat) : Nat := (a + b) % M64

/-- 64-bit left rotation (`x.rotate_left r` on `u64`). -/
def rotl (x r : Nat) : Nat := ((x <<< r) % M64) ||| (x >>> (64 - r))

/-! ## UTF-8 encoding (`str::as_bytes`)

Rust strings are UTF-8; `text.as_bytes()` yields the UTF-8 encoding of the
character sequence.  We encode each scalar value by the standard UTF-8
scheme. -/

/-- UTF-8 encoding of one Unicode scalar value, as a list of byte values. -/
def utf8Char (c : Char) : List Nat :=
  let n := c.toNat
  if n < 0x80 then [n]
  else if n < 0x800 then [0xC0 + n / 64, 0x80 + n % 64]
  else if n < 0x10000 then [0xE0 + n / 4096, 0x80 + n / 64 % 64, 0x80 + n % 64]
  else [0xF0 + n / 262144, 0x80 + n / 4096 % 64, 0x80 + n / 64 % 64, 0x80 + n % 64]

/-- The UTF-8 bytes of a string (`s.as_bytes()` in Rust). -/
def strBytes (s : String) : List Nat := (s.data.map utf8Char).flatten

/-! ## SipHash-1-3 (`std::hash::DefaultHasher` with zero keys)

`deduplication::sim_hash` feeds the text's bytes to
`std::hash::DefaultHasher` and returns `finish()`.  `DefaultHasher` is
SipHash-1-3 with both keys zero: one compression round per 8-byte word and
three finalisation rounds, the final word carrying `len % 256` in its top
byte. -/

/-- One SipHash round on the four-word state. -/
def sipRound : Nat × Nat × Nat × Nat → Nat × Nat × Nat × Nat
  | (v0, v1, v2, v3) =>
    let v0 := wadd v0 v1
    let v1 := rotl v1 13
    let v1 := Nat.xor v1 v0
    let v0 := rotl v0 32
    let v2 := wadd v2 v3
    let v3 := rotl v3 16
    let v3 := Nat.xor v3 v2
    let v0 := wadd v0 v3
    let v3 := rotl v3 21
    let v3 := Nat.xor v3 v0
    let v2 := wadd v2 v1
    let v1 := rotl v1 17
    let v1 := Nat.xor v1 v2
    let v2 := rotl v2 32
    (v0, v1, v2, v3)

/-- Absorb one 64-bit message word (SipHash-1-3: a single round). -/
def sipCompress (st : Nat × Nat × Nat × Nat) (m : Nat) : Nat × Nat × Nat × Nat :=
  let (v0, v1, v2, v3) := st
  let (v0, v1, v2, v3) := sipRound (v0, v1, v2, Nat.xor v3 m)
  (Nat.xor v0 m, v1, v2, v3)

/-- Split a byte list into full 8-byte chunks and a remainder of < 8 bytes. -/
def chunk8 : List Nat → List (List Nat) × List Nat
  | b0 :: b1 :: b2 :: b3 :: b4 :: b5 :: b6 :: b7 :: rest =>
    let (cs, r) := chunk8 rest
    ([b0, b1, b2, b3, b4, b5, b6, b7] :: cs, r)
  | rest => ([], rest)

/-- Little-endian interpretation of a byte list as a number. -/
def leWord : List Nat → Nat
  | [] => 0
  | b :: bs => b + 256 * leWord bs

/-- SipHash-1-3 with keys `(0, 0)` over a byte list: the value
`DefaultHasher::new().write(msg); .finish()` computes. -/
def sipHash13 (msg : List Nat) : Nat :=
  let st0 : Nat × Nat × Nat × Nat :=
    (0x736f6d6570736575, 0x646f72616e646f6d, 0x6c7967656e657261, 0x7465646279746573)
  let (chunks, rem) := chunk8 msg
  let st1 := chunks.foldl (fun st w => sipCompress st (leWord w)) st0
  let b := (msg.length % 256) <<< 56 + leWord rem
  let st2 := sipCompress st1 b
  let (v0, v1, v2, v3) := st2
  let (v0, v1, v2, v3) := sipRound (sipRound (sipRound (v0, v1, Nat.xor v2 0xff, v3)))
  Nat.xor (Nat.xor v0 v1) (Nat.xor v2 v3)

/-- `deduplication::sim_hash`: despite its name, the source hashes the raw
bytes of the whole text with `DefaultHasher` ("Use a basic text hash for
now"), performing no tokenization and no bit-column voting. -/
def sim_hash (s : String) : Nat := sipHash13 (strBytes s)

/-! ## SimHash tokenization, as claimed

Modelled from the spec: the specification describes `sim_hash` as a SimHash
that first tokenizes the text on non-alphanumeric characters; no such
tokenizer exists in the source.  Any function of the claimed shape depends on
the input only through this token list. -/

/-- A character counts as alphanumeric for tokenization. -/
def isAlnum (c : Char) : Bool := c.isAlpha || c.isDigit

/-- Modelled from the spec: accumulate maximal alphanumeric runs; `acc` holds
the current run reversed. -/
def tokensAux : List Char → List Char → List String
  | [], acc => if acc.isEmpty then [] else [String.mk acc.reverse]
  | c :: cs, acc =>
    if isAlnum c then tokensAux cs (c :: acc)
    else if acc.isEmpty then tokensAux cs []
    else String.mk acc.reverse :: tokensAux cs []

/-- Modelled from the spec: tokenize a string on non-alphanumeric
characters. -/
def tokenizeSpec (s : String) : List String := tokensAux s.data []

/-- C1: `sim_hash` is claimed to be a SimHash computed from the token list
obtained by splitting on non-alphanumeric characters, so any two strings with
the same token list would receive the same value.  The strings `"a b"` and
`"a,b"` tokenize identically, yet the code — which hashes the raw bytes with
`DefaultHasher` — gives them different values. -/
theorem sim_hash_is_not_a_simhash :
    tokenizeSpec "a b" = tokenizeSpec "a,b" ∧ sim_hash "a b" ≠ sim_hash "a,b" := by
  constructor
  · rfl
  · decide

/-! ## Pages and their stored hashes (`storage/models.rs`, `crawler.rs`)

Fields of `Page` that carry chrono timestamps (`fetched_at`, `created_at`)
and fields never consulted by the embedded code (`content_length`,
`meta_json`, `etag`, `last_modified`) are omitted; no claim depends on
them. -/

structure Page where
  id : Int
  url : String
  canonical_url : Option String
  title : Option String
  text_hash : Option String
  sim_hash : Option String
  status_code : Option Int
deriving DecidableEq

/-- Decimal rendering of a `u64`, as produced by `h.to_string()` in Rust. -/
def decimalString (n : Nat) : String := Nat.repr n

/-- Modelled from the spec: the hexadecimal rendering of a 64-bit hash, which
the spec says is the stored form ("Hashes are stored as hexadecimal
strings"). -/
def hexString (n : Nat) : String := String.mk (Nat.toDigits 16 n)

/-- `Page::create` (`storage/models.rs`): builds the placeholder row; each
hash is stored through `h.to_string()`, the decimal rendering. -/
def Page.create (url : String) (text_hash sim_hash : Option Nat)
    (title canonical_url : Option String) : Page :=
  { id := 1
    url := url
    canonical_url := canonical_url
    title := title
    text_hash := text_hash.map (fun h => decimalString h)
    sim_hash := sim_hash.map (fun h => decimalString h)
    status_code := some 200 }

/-- `deduplication::text_hash`: the 64-bit xxh3 of the raw bytes of the
text.  The `xxh3_64` function itself lives in the external `xxhash_rust`
crate, so it is a parameter of the embedding; what the repository
contributes is which bytes are hashed (the text unchanged, not
lowercased). -/
def text_hash (xxh3_64 : List Nat → Nat) (text : String) : Nat :=
  xxh3_64 (strBytes text)

/-- Export-phase page construction (`crawler.rs`, `run_crawler_loop`): the
hashes are computed from `processed_page_data.main_content` exactly as
fetched and handed to `Page::create`. -/
def exportPhasePage (xxh3_64 : List Nat → Nat) (url main_content : String)
    (title canonical_url : Option String) : Page :=
  Page.create url (some (text_hash xxh3_64 main_content))
    (some (sim_hash main_content)) title canonical_url

/-- Claim C5, counterexample: the page written for main content `"a b"`
stores its `sim_hash` as the decimal string of the hash value, which is not
the hexadecimal string of that value. -/
theorem stored_hashes_not_hexadecimal :
    (exportPhasePage (fun _ => 0) "https://example.com/" "a b" none none).sim_hash
        = some (decimalString (sim_hash "a b")) ∧
    (exportPhasePage (fun _ => 0) "https://example.com/" "a b" none none).sim_hash
        ≠ some (hexString (sim_hash "a b")) := by
  constructor
  · rfl
  · decide

/-- Claim C5, amended: for every choice of the external `xxh3_64` function
and every page, the stored `text_hash` is the decimal string of the xxh3 of
the main-content bytes unchanged (no lowercasing), and the stored `sim_hash`
is the decimal string of the `DefaultHasher` value of the same bytes. -/
theorem stored_hashes_decimal_of_raw_bytes (xxh3_64 : List Nat → Nat)
    (url main_content : String) (title canonical_url : Option String) :
    (exportPhasePage xxh3_64 url main_content title canonical_url).text_hash
        = some (decimalString (xxh3_64 (strBytes main_content))) ∧
    (exportPhasePage xxh3_64 url main_content title canonical_url).sim_hash
        = some (decimalString (sipHash13 (strBytes main_content))) :=
  ⟨rfl, rfl⟩

/-! ## Deduplicator (`deduplication.rs`, `storage/mod.rs`)

`Storage` is the pages table; the two lookup methods the `Deduplicator`
calls are, in the source, placeholder implementations that ignore the store
and return an empty vector. -/

structure Storage where
  pages : List Page
deriving DecidableEq

/-- `Storage::find_pages_by_text_hash` (`storage/mod.rs`): placeholder
implementation, returns no rows regardless of the store. -/
def find_pages_by_text_hash (_st : Storage) (_text_hash : String) : List Page := []

/-- `Storage::find_near_duplicates` (`storage/mod.rs`): placeholder
implementation, returns no rows regardless of the store. -/
def find_near_duplicates (_st : Storage) (_sim_hash : String) : List Page := []

/-- `Deduplicator::is_duplicate` (`deduplication.rs`): true when the
text-hash lookup or the near-duplicate lookup returns a non-empty list. -/
def is_duplicate (st : Storage) (page : Page) : Bool :=
  (match page.text_hash with
   | some th => !(find_pages_by_text_hash st th).isEmpty
   | none => false) ||
  (match page.sim_hash with
   | some sh => !(find_near_duplicates st sh).isEmpty
   | none => false)

/-- A concrete page used to exhibit the C6 divergence. -/
def pageWithHashes : Page :=
  { id := 1, url := "https://example.com/", canonical_url := none, title := none
    text_hash := some "42", sim_hash := some "7", status_code := some 200 }

/-- Claim C6: `is_duplicate` returns `false` for every store and page —
the storage lookups are stubs — even when the store visibly contains a page
with the same `text_hash`. -/
theorem is_duplicate_constantly_false :
    (∀ st page, is_duplicate st page = false) ∧
    (Storage.mk [pageWithHashes]).pages.any
        (fun p => p.text_hash = pageWithHashes.text_hash) = true := by
  refine ⟨fun st page => ?_, by decide⟩
  unfold is_duplicate find_pages_by_text_hash find_near_duplicates
  cases page.text_hash <;> cases page.sim_hash <;> rfl

/-! ## NLP keyword gate (`nlp.rs`)

The Aho-Corasick automaton built with `ascii_case_insensitive(true)` and
`MatchKind::LeftmostFirst` reports a match exactly when one of its patterns
occurs as a substring of the text up to ASCII case.  `NlpProcessor` keeps
`Some(matcher)` iff `nlp.enabled`; the keywords are trimmed on the way in. -/

/-- Substring test on character lists. -/
def listContains (hay pat : List Char) : Bool :=
  (List.range (hay.length + 1)).any fun i => pat.isPrefixOf (hay.drop i)

/-- ASCII-lowercased character list of a string. -/
def lowerData (s : String) : List Char := s.data.map Char.toLower

/-- `AhoCorasick::is_match` with `ascii_case_insensitive(true)`: some pattern
occurs in the text, compared ASCII-case-insensitively. -/
def acIsMatch (patterns : List String) (text : String) : Bool :=
  patterns.any fun p => listContains (lowerData text) (lowerData p)

/-- `NlpConfig` (`config.rs`). -/
structure NlpConfig where
  enabled : Bool
  keywords : List String

/-- `NlpProcessor::new`: the matcher is built (over trimmed keywords) iff
NLP is enabled. -/
def NlpProcessor.new (config : NlpConfig) : Option (List String) :=
  if config.enabled then some (config.keywords.map (fun s => s.trim)) else none

/-- `NlpProcessor::is_match`: with a matcher, defer to it; with NLP
disabled, every text matches. -/
def nlpIsMatch (keyword_matcher : Option (List String)) (text : String) : Bool :=
  match keyword_matcher with
  | some patterns => acIsMatch patterns text
  | none => true

/-- `NlpProcessor::score_outlink`: `Some(1)`/`Some(0)` with a matcher,
`None` when NLP is disabled. -/
def score_outlink (keyword_matcher : Option (List String))
    (outlink_text : String) : Option Nat :=
  match keyword_matcher with
  | some patterns => if acIsMatch patterns outlink_text then some 1 else some 0
  | none => none

/-- Claim C10: with `enabled = true` and an empty keyword list the processor
rejects every text — `is_match` is constantly `false` (so the export-phase
gate `if !nlp_processor.is_match(..) { return; }` drops every page) and
`score_outlink` is constantly `Some(0)` — whereas `enabled = false` gives
the accept-all matcher. -/
theorem nlp_empty_keywords_reject_all :
    (∀ text, nlpIsMatch (NlpProcessor.new ⟨true, []⟩) text = false) ∧
    (∀ outlink_text,
        score_outlink (NlpProcessor.new ⟨true, []⟩) outlink_text = some 0) ∧
    (∀ keywords text, nlpIsMatch (NlpProcessor.new ⟨false, keywords⟩) text = true) :=
  ⟨fun _ => rfl, fun _ => rfl, fun _ _ => rfl⟩

/-! ## HTTP retry policy (`http.rs`)

`get_with_retry` drives one attempt per element demanded from the
`tokio_retry` strategy `ExponentialBackoff::from_millis(10).map(jitter).take(3)`,
plus the initial attempt: `Retry::spawn` runs the action once and then once
more per delay the (finite) strategy yields.  The random jitter is a
parameter.  One attempt ends in a retryable error on a transport failure or
a 5xx status, and otherwise hands the response back. -/

/-- Outcome of a single HTTP exchange: a transport-level failure, or a
response bearing a status code. -/
inductive AttemptOutcome where
  | transport
  | response (status : Nat)

/-- `StatusCode::is_server_error`: 500..=599. -/
def is_server_error (status : Nat) : Bool := 500 ≤ status && status ≤ 599

/-- The closure passed to `Retry::spawn`: a 5xx response becomes a retryable
error (`error_for_status`), a transport error is retryable, anything else is
returned to the caller. -/
def attemptResult : AttemptOutcome → Except Unit Nat
  | .transport => .error ()
  | .response s => if is_server_error s then .error () else .ok s

/-- `tokio_retry::Retry::spawn`: run the action; on error, consume one delay
from the strategy and retry; when the strategy is exhausted, give up.
Returns the number of attempts made together with the final result.  The
`outcomes` oracle says how the network behaves on the k-th attempt. -/
def retryLoop (outcomes : Nat → AttemptOutcome) :
    List Nat → Nat → Nat × Except Unit Nat
  | delays, k =>
    match attemptResult (outcomes k) with
    | .ok s => (k + 1, .ok s)
    | .error e =>
      match delays with
      | [] => (k + 1, .error e)
      | _ :: rest => retryLoop outcomes rest (k + 1)

/-- `ExponentialBackoff::from_millis(base)`: successive delays `base`,
`base²`, … (each step multiplies by `base`). -/
def expDelays (current base : Nat) : Nat → List Nat
  | 0 => []
  | n + 1 => current :: expDelays (current * base) base n

/-- The strategy `ExponentialBackoff::from_millis(10).map(jitter).take(3)`. -/
def retryStrategy (jitter : Nat → Nat) : List Nat :=
  (expDelays 10 10 3).map jitter

/-- `HttpClient::get_with_retry`, reduced to its retry skeleton. -/
def get_with_retry (jitter : Nat → Nat) (outcomes : Nat → AttemptOutcome) :
    Nat × Except Unit Nat :=
  retryLoop outcomes (retryStrategy jitter) 0

/-- Claim C7, counterexample: when every attempt yields a 500 response,
`get_with_retry` makes 4 attempts, not at most 3: the strategy's three
delays are retries on top of the initial attempt. -/
theorem get_with_retry_makes_four_attempts :
    (get_with_retry id (fun _ => .response 500)).1 = 4 ∧
    ¬ (get_with_retry id (fun _ => .response 500)).1 ≤ 3 := by
  refine ⟨rfl, by decide⟩

/-- Bounding lemma for the retry loop: attempts never exceed the first
attempt plus one per available delay. -/
theorem retryLoop_attempts_le (outcomes : Nat → AttemptOutcome) :
    ∀ (delays : List Nat) (k : Nat),
      (retryLoop outcomes delays k).1 ≤ k + delays.length + 1 := by
  intro delays
  induction delays with
  | nil =>
    intro k
    unfold retryLoop
    cases attemptResult (outcomes k) <;> simp
  | cons d rest ih =>
    intro k
    unfold retryLoop
    cases attemptResult (outcomes k) with
    | error e =>
      simpa [Nat.add_assoc, Nat.add_comm, Nat.add_left_comm] using ih (k + 1)
    | ok s => simp

/-- Claim C7, amended: at most 4 attempts (one initial plus three backoff
retries at 10, 100 and 1000 ms before jitter); a first attempt whose
response is not a 5xx — in particular any 4xx — is returned to the caller
as a successful exchange after exactly one attempt. -/
theorem get_with_retry_amended (jitter : Nat → Nat)
    (outcomes : Nat → AttemptOutcome) :
    (get_with_retry jitter outcomes).1 ≤ 4 ∧
    retryStrategy jitter = [jitter 10, jitter 100, jitter 1000] ∧
    (∀ s, outcomes 0 = .response s → is_server_error s = false →
      get_with_retry jitter outcomes = (1, .ok s)) := by
  refine ⟨?_, rfl, ?_⟩
  · simpa [retryStrategy, expDelays] using
      retryLoop_attempts_le outcomes (retryStrategy jitter) 0
  · intro s h0 hs
    unfold get_with_retry retryLoop
    rw [h0]
    simp [attemptResult, hs]

/-- Witness for the amended C7 theorem at a concrete oracle: a 404 on the
first attempt is returned as a successful exchange, in one attempt. -/
theorem get_with_retry_amended_witness :
    get_with_retry id (fun _ => .response 404) = (1, .ok 404) :=
  (get_with_retry_amended id (fun _ => .response 404)).2.2 404 rfl (by decide)

/-! ## The crawl frontier (`frontier.rs`)

URLs are modelled by the components the embedded code reads: host (with
`host_str().unwrap_or_default()` rendered as the empty string when absent),
path, query and fragment.  The `DashMap` of host queues becomes an
association list with pairwise-distinct keys; `Instant` becomes a
millisecond timestamp (`Nat`), so the one-second politeness delay is 1000.
The `PriorityQueue` becomes the list of its entries: `push` appends, `peek`
returns the first entry of maximal priority, `pop` removes it. -/

structure Url where
  host : String
  path : String
  query : Option String
  fragment : Option String
deriving DecidableEq

/-- `Scope` (`storage/models.rs`): only `pattern` is read by the embedded
code; the remaining columns are omitted. -/
structure Scope where
  pattern : String
deriving DecidableEq

/-- Rust `str::contains` on a string pattern: substring test.  UTF-8 is
self-synchronizing, so byte-level containment of one valid string in
another coincides with character-level containment. -/
def strContains (hay pat : String) : Bool := listContains hay.data pat.data

def MAX_QUEUE_SIZE : Nat := 1000000

/-- `Duration::from_secs(1)` in milliseconds. -/
def politenessDelayMs : Nat := 1000

structure HostQueue where
  queue : List (Url × Int)
  next_allowed_at : Nat
deriving DecidableEq

structure Frontier where
  host_queues : List (String × HostQueue)
  seen_urls : List Url
  size : Nat
deriving DecidableEq

def Frontier.new : Frontier := ⟨[], [], 0⟩

/-- `calculate_priority`: +5 when the URL is internal, +3 when it came from
a sitemap, +1 when the path is shorter than 20 bytes (`path().len()` counts
bytes). -/
def calculate_priority (url : Url) (_scope : Scope)
    (is_internal is_sitemap : Bool) : Int :=
  let priority : Int := 0
  let priority := if is_internal then priority + 5 else priority
  let priority := if is_sitemap then priority + 3 else priority
  let priority := if (strBytes url.path).length < 20 then priority + 1 else priority
  priority

/-- `PriorityQueue::peek`: the first entry of maximal priority, if any. -/
def peekQ : List (Url × Int) → Option (Url × Int)
  | [] => none
  | e :: rest =>
    match peekQ rest with
    | none => some e
    | some b => if b.2 > e.2 then some b else some e

/-- `PriorityQueue::pop`: remove the entry `peek` returns. -/
def popQ (q : List (Url × Int)) : Option (Url × Int) × List (Url × Int) :=
  match peekQ q with
  | none => (none, q)
  | some e => (some e, q.erase e)

/-- Replace the queue stored under a key of the host map. -/
def updateHost : List (String × HostQueue) → String → HostQueue →
    List (String × HostQueue)
  | [], _, _ => []
  | (k, v) :: rest, h, q =>
    if k = h then (k, q) :: updateHost rest h q
    else (k, v) :: updateHost rest h q

/-- `Frontier::add_url`.  `now` stands for the `Instant::now()` the source
takes when it creates a fresh host queue. -/
def Frontier.add_url (f : Frontier) (now : Nat) (url : Url) (scope : Scope)
    (is_sitemap : Bool) : Frontier :=
  if url ∈ f.seen_urls ∨ ¬ f.size < MAX_QUEUE_SIZE then f
  else
    let host := url.host
    let is_internal := strContains scope.pattern host
    let priority := calculate_priority url scope is_internal is_sitemap
    match List.lookup host f.host_queues with
    | some hq =>
      { f with
        host_queues :=
          updateHost f.host_queues host { hq with queue := hq.queue ++ [(url, priority)] }
        seen_urls := url :: f.seen_urls
        size := f.size + 1 }
    | none =>
      { f with
        host_queues :=
          f.host_queues ++ [(host, { queue := [(url, priority)], next_allowed_at := now })]
        seen_urls := url :: f.seen_urls
        size := f.size + 1 }

/-- The host-selection loop of `get_next_url`: fold the accumulator
`(best_host, max_priority)` — initialised to `(None, i32::MIN)` — over the
map entries, keeping the first strictly greater eligible peek. -/
def scanBest (now : Nat) : List (String × HostQueue) → Option String × Int →
    Option String × Int
  | [], acc => acc
  | e :: rest, acc =>
    scanBest now rest
      (if e.2.next_allowed_at ≤ now then
        match peekQ e.2.queue with
        | some q => if q.2 > acc.2 then (some e.1, q.2) else acc
        | none => acc
      else acc)

/-- `i32::MIN`, the initial `max_priority`. -/
def i32Min : Int := -(2 ^ 31)

/-- `Frontier::get_next_url`: select the eligible host with the strictly
greatest peek priority, stamp its `next_allowed_at`, pop, decrement
`size`. -/
def Frontier.get_next_url (f : Frontier) (now : Nat) : Option Url × Frontier :=
  match (scanBest now f.host_queues (none, i32Min)).1 with
  | none => (none, f)
  | some h =>
    match List.lookup h f.host_queues with
    | none => (none, f)
    | some hq =>
      let hq' := { hq with next_allowed_at := now + politenessDelayMs }
      match popQ hq.queue with
      | (none, _) => (none, { f with host_queues := updateHost f.host_queues h hq' })
      | (some e, rest) =>
        (some e.1,
          { f with
            host_queues := updateHost f.host_queues h { hq' with queue := rest }
            size := f.size - 1 })

/-- Looking a key up after updating that key. -/
theorem lookup_updateHost_self (h : String) (q : HostQueue) :
    ∀ qs : List (String × HostQueue), (List.lookup h qs).isSome →
      List.lookup h (updateHost qs h q) = some q := by
  intro qs
  induction qs with
  | nil => simp [List.lookup]
  | cons e rest ih =>
    obtain ⟨a, b⟩ := e
    by_cases hab : a = h
    · subst hab
      intro _
      simp [updateHost, List.lookup]
    · have hbe : (h == a) = false := beq_eq_false_iff_ne.mpr fun hh => hab hh.symm
      intro hs
      simp only [List.lookup, hbe] at hs
      simpa [updateHost, if_neg hab, List.lookup, hbe] using ih hs

/-- Updating one key leaves lookups of other keys unchanged. -/
theorem lookup_updateHost_ne (h h' : String) (q : HostQueue) (hne : h ≠ h') :
    ∀ qs : List (String × HostQueue),
      List.lookup h (updateHost qs h' q) = List.lookup h qs := by
  intro qs
  induction qs with
  | nil => simp [updateHost]
  | cons e rest ih =>
    obtain ⟨a, b⟩ := e
    by_cases hah : a = h'
    · subst hah
      have hbe : (h == a) = false := beq_eq_false_iff_ne.mpr hne
      simp [updateHost, List.lookup, hbe, ih]
    · by_cases hha : h = a
      · subst hha
        simp [updateHost, if_neg hah, List.lookup]
      · have hbe : (h == a) = false := beq_eq_false_iff_ne.mpr hha
        simp [updateHost, if_neg hah, List.lookup, hbe, ih]

/-- Lookup distributes over append: if the old part answers, its answer
wins. -/
theorem lookup_append_some (h : String) (qs extra : List (String × HostQueue))
    (hs : (List.lookup h qs).isSome) :
    List.lookup h (qs ++ extra) = List.lookup h qs := by
  induction qs with
  | nil => simp [List.lookup] at hs
  | cons e rest ih =>
    obtain ⟨a, b⟩ := e
    by_cases hab : (h == a)
    · simp [List.lookup, hab]
    · simp only [List.lookup, Bool.not_eq_true] at hab
      simp only [List.lookup, hab] at hs
      simp [List.lookup, hab, ih hs]

/-- Lookup distributes over append: if the old part has no answer, the new
part decides. -/
theorem lookup_append_none (h : String) (qs extra : List (String × HostQueue))
    (hn : List.lookup h qs = none) :
    List.lookup h (qs ++ extra) = List.lookup h extra := by
  induction qs with
  | nil => simp
  | cons e rest ih =>
    obtain ⟨a, b⟩ := e
    by_cases hab : (h == a)
    · simp [List.lookup, hab] at hn
    · simp only [List.lookup, Bool.not_eq_true] at hab
      simp only [List.lookup, hab] at hn
      simp [List.lookup, hab, ih hn]

/-- The stop condition of `add_url`: a seen URL, or no capacity. -/
theorem add_url_stop (f : Frontier) (now : Nat) (url : Url) (scope : Scope)
    (is_sitemap : Bool) (hstop : url ∈ f.seen_urls ∨ ¬ f.size < MAX_QUEUE_SIZE) :
    f.add_url now url scope is_sitemap = f := by
  unfold Frontier.add_url
  rw [if_pos hstop]

/-- Closed form of `add_url` when the URL is fresh, the frontier has room,
and the host already has a queue. -/
theorem add_url_eq_of_lookup_some (f : Frontier) (now : Nat) (url : Url)
    (scope : Scope) (is_sitemap : Bool) (hq : HostQueue)
    (hcond : ¬ (url ∈ f.seen_urls ∨ ¬ f.size < MAX_QUEUE_SIZE))
    (hlk : List.lookup url.host f.host_queues = some hq) :
    f.add_url now url scope is_sitemap =
      { f with
        host_queues := updateHost f.host_queues url.host
          { hq with queue := hq.queue ++
              [(url, calculate_priority url scope
                  (strContains scope.pattern url.host) is_sitemap)] }
        seen_urls := url :: f.seen_urls
        size := f.size + 1 } := by
  unfold Frontier.add_url
  rw [if_neg hcond]
  simp only [hlk]

/-- Closed form of `add_url` when the URL is fresh, the frontier has room,
and the host is new. -/
theorem add_url_eq_of_lookup_none (f : Frontier) (now : Nat) (url : Url)
    (scope : Scope) (is_sitemap : Bool)
    (hcond : ¬ (url ∈ f.seen_urls ∨ ¬ f.size < MAX_QUEUE_SIZE))
    (hlk : List.lookup url.host f.host_queues = none) :
    f.add_url now url scope is_sitemap =
      { f with
        host_queues := f.host_queues ++
          [(url.host,
            { queue := [(url, calculate_priority url scope
                (strContains scope.pattern url.host) is_sitemap)]
              next_allowed_at := now })]
        seen_urls := url :: f.seen_urls
        size := f.size + 1 } := by
  unfold Frontier.add_url
  rw [if_neg hcond]
  simp only [hlk]

/-- `calculate_priority` in the summed form the spec states. -/
theorem calculate_priority_eq (url : Url) (scope : Scope)
    (is_internal is_sitemap : Bool) :
    calculate_priority url scope is_internal is_sitemap =
      (if is_internal then (5 : Int) else 0) + (if is_sitemap then 3 else 0) +
      (if (strBytes url.path).length < 20 then 1 else 0) := by
  unfold calculate_priority
  split_ifs <;> simp

/-- Claim C3: `add_url` is a no-op on a seen URL or a full frontier;
otherwise it enqueues the URL under its host with priority
5·internal + 3·sitemap + 1·short-path, marks it seen and grows `size`,
after which re-adding the same URL is a no-op. -/
theorem add_url_spec (f : Frontier) (now : Nat) (url : Url) (scope : Scope)
    (is_sitemap : Bool) :
    ((url ∈ f.seen_urls ∨ MAX_QUEUE_SIZE ≤ f.size) →
        f.add_url now url scope is_sitemap = f) ∧
    (url ∉ f.seen_urls → f.size < MAX_QUEUE_SIZE →
      (f.add_url now url scope is_sitemap).size = f.size + 1 ∧
      url ∈ (f.add_url now url scope is_sitemap).seen_urls ∧
      (∃ hq, List.lookup url.host (f.add_url now url scope is_sitemap).host_queues
            = some hq ∧
        (url, (if strContains scope.pattern url.host then (5 : Int) else 0) +
              (if is_sitemap then 3 else 0) +
              (if (strBytes url.path).length < 20 then 1 else 0)) ∈ hq.queue) ∧
      (∀ now' scope' sm',
        (f.add_url now url scope is_sitemap).add_url now' url scope' sm'
          = f.add_url now url scope is_sitemap)) := by
  constructor
  · intro hstop
    refine add_url_stop f now url scope is_sitemap ?_
    rcases hstop with hseen | hfull
    · exact Or.inl hseen
    · exact Or.inr (by omega)
  · intro hseen hcap
    have hcond : ¬ (url ∈ f.seen_urls ∨ ¬ f.size < MAX_QUEUE_SIZE) := by
      push_neg
      exact ⟨hseen, hcap⟩
    have hmain :
        (f.add_url now url scope is_sitemap).size = f.size + 1 ∧
        (f.add_url now url scope is_sitemap).seen_urls = url :: f.seen_urls ∧
        ∃ hq, List.lookup url.host (f.add_url now url scope is_sitemap).host_queues
            = some hq ∧
          (url, calculate_priority url scope (strContains scope.pattern url.host)
              is_sitemap) ∈ hq.queue := by
      rcases hlk : List.lookup url.host f.host_queues with _ | hq
      · rw [add_url_eq_of_lookup_none f now url scope is_sitemap hcond hlk]
        refine ⟨rfl, rfl,
          { queue := [(url, calculate_priority url scope
              (strContains scope.pattern url.host) is_sitemap)]
            next_allowed_at := now }, ?_, ?_⟩
        · rw [lookup_append_none url.host f.host_queues _ hlk]
          simp [List.lookup]
        · simp
      · rw [add_url_eq_of_lookup_some f now url scope is_sitemap hq hcond hlk]
        refine ⟨rfl, rfl, { hq with queue := hq.queue ++
            [(url, calculate_priority url scope
              (strContains scope.pattern url.host) is_sitemap)] }, ?_, ?_⟩
        · exact lookup_updateHost_self url.host _ f.host_queues (by rw [hlk]; rfl)
        · simp
    obtain ⟨hsz, hsu, hq, hlk', hmem⟩ := hmain
    refine ⟨hsz, ?_, ⟨hq, hlk', ?_⟩, ?_⟩
    · rw [hsu]
      exact List.mem_cons_self _ _
    · rwa [calculate_priority_eq] at hmem
    · intro now' scope' sm'
      refine add_url_stop _ now' url scope' sm' (Or.inl ?_)
      rw [hsu]
      exact List.mem_cons_self _ _

/-- Witness for C3 at a concrete frontier: adding a fresh URL to the empty
frontier grows `size` to 1 and marks the URL seen. -/
theorem add_url_spec_witness :
    (Frontier.new.add_url 0 ⟨"example.com", "/a", none, none⟩
        ⟨"example.com"⟩ false).size = Frontier.new.size + 1 ∧
    (⟨"example.com", "/a", none, none⟩ : Url) ∈
      (Frontier.new.add_url 0 ⟨"example.com", "/a", none, none⟩
        ⟨"example.com"⟩ false).seen_urls := by
  have h := (add_url_spec Frontier.new 0 ⟨"example.com", "/a", none, none⟩
    ⟨"example.com"⟩ false).2 (by decide) (by decide)
  exact ⟨h.1, h.2.1⟩

/-- A lookup hit names a member of the association list. -/
theorem mem_of_lookup_some (h : String) (hq : HostQueue) :
    ∀ qs : List (String × HostQueue), List.lookup h qs = some hq → (h, hq) ∈ qs := by
  intro qs
  induction qs with
  | nil => simp [List.lookup]
  | cons e rest ih =>
    obtain ⟨a, b⟩ := e
    by_cases hab : (h == a)
    · simp only [List.lookup, hab]
      intro hsome
      obtain rfl : b = hq := by simpa using hsome
      obtain rfl : h = a := by simpa using hab
      exact List.mem_cons_self _ _
    · simp only [List.lookup, Bool.not_eq_true] at hab
      simp only [List.lookup, hab]
      intro hsome
      exact List.mem_cons_of_mem _ (ih hsome)

/-- With pairwise-distinct keys, membership determines the lookup. -/
theorem lookup_of_mem_nodup (h : String) (hq : HostQueue) :
    ∀ qs : List (String × HostQueue), (qs.map Prod.fst).Nodup →
      (h, hq) ∈ qs → List.lookup h qs = some hq := by
  intro qs
  induction qs with
  | nil => simp
  | cons e rest ih =>
    obtain ⟨a, b⟩ := e
    intro hnd hmem
    simp only [List.map, List.nodup_cons] at hnd
    rcases List.mem_cons.mp hmem with hhead | htail
    · cases hhead
      simp [List.lookup]
    · have hne : ¬ h = a := by
        intro hha
        subst hha
        exact hnd.1 (List.mem_map.mpr ⟨(h, hq), htail, rfl⟩)
      have hbe : (h == a) = false := beq_eq_false_iff_ne.mpr hne
      simp only [List.lookup, hbe]
      exact ih hnd.2 htail

/-- A failed lookup means the key is absent. -/
theorem not_mem_keys_of_lookup_none (h : String) :
    ∀ qs : List (String × HostQueue), List.lookup h qs = none →
      h ∉ qs.map Prod.fst := by
  intro qs
  induction qs with
  | nil => simp
  | cons e rest ih =>
    obtain ⟨a, b⟩ := e
    by_cases hab : (h == a)
    · simp [List.lookup, hab]
    · simp only [List.lookup, Bool.not_eq_true] at hab
      simp only [List.lookup, hab]
      intro hnone
      simp only [List.map, List.mem_cons]
      rintro (rfl | hmem)
      · simp at hab
      · exact ih hnone hmem

/-- `peek` returns a member of the queue. -/
theorem peekQ_mem : ∀ (q : List (Url × Int)) (e : Url × Int),
    peekQ q = some e → e ∈ q := by
  intro q
  induction q with
  | nil => simp [peekQ]
  | cons x rest ih =>
    intro e
    cases hrest : peekQ rest with
    | none =>
      simp only [peekQ, hrest]
      intro he
      obtain rfl : x = e := by simpa using he
      exact List.mem_cons_self _ _
    | some b =>
      simp only [peekQ, hrest]
      by_cases hgt : b.2 > x.2
      · rw [if_pos hgt]
        intro he
        obtain rfl : b = e := by simpa using he
        exact List.mem_cons_of_mem _ (ih _ hrest)
      · rw [if_neg hgt]
        intro he
        obtain rfl : x = e := by simpa using he
        exact List.mem_cons_self _ _

/-- `updateHost` preserves the key list. -/
theorem updateHost_keys (h : String) (q : HostQueue) :
    ∀ qs : List (String × HostQueue),
      (updateHost qs h q).map Prod.fst = qs.map Prod.fst := by
  intro qs
  induction qs with
  | nil => rfl
  | cons e rest ih =>
    obtain ⟨a, b⟩ := e
    by_cases hab : a = h
    · simp [updateHost, hab, ih]
    · simp [updateHost, hab, ih]

/-- Members of `updateHost` are old members or the fresh pair. -/
theorem mem_updateHost (h : String) (q : HostQueue) :
    ∀ (qs : List (String × HostQueue)) (e : String × HostQueue),
      e ∈ updateHost qs h q → e ∈ qs ∨ e = (h, q) := by
  intro qs
  induction qs with
  | nil => simp [updateHost]
  | cons x rest ih =>
    obtain ⟨a, b⟩ := x
    intro e
    by_cases hab : a = h
    · rw [show updateHost ((a, b) :: rest) h q = (a, q) :: updateHost rest h q from by
        simp [updateHost, hab]]
      intro hmem
      rcases List.mem_cons.mp hmem with rfl | hmem2
      · subst hab
        exact Or.inr rfl
      · rcases ih e hmem2 with hold | hnew
        · exact Or.inl (List.mem_cons_of_mem _ hold)
        · exact Or.inr hnew
    · rw [show updateHost ((a, b) :: rest) h q = (a, b) :: updateHost rest h q from by
        simp [updateHost, hab]]
      intro hmem
      rcases List.mem_cons.mp hmem with rfl | hmem2
      · exact Or.inl (List.mem_cons_self _ _)
      · rcases ih e hmem2 with hold | hnew
        · exact Or.inl (List.mem_cons_of_mem _ hold)
        · exact Or.inr hnew

/-- The host-selection loop skips an entry inside its politeness delay. -/
theorem scanBest_cons_ineligible (now : Nat) (e : String × HostQueue)
    (rest : List (String × HostQueue)) (acc : Option String × Int)
    (h : ¬ e.2.next_allowed_at ≤ now) :
    scanBest now (e :: rest) acc = scanBest now rest acc := by
  simp [scanBest, h]

/-- The host-selection loop skips an eligible entry with an empty queue. -/
theorem scanBest_cons_emptyQ (now : Nat) (e : String × HostQueue)
    (rest : List (String × HostQueue)) (acc : Option String × Int)
    (helig : e.2.next_allowed_at ≤ now) (hpk : peekQ e.2.queue = none) :
    scanBest now (e :: rest) acc = scanBest now rest acc := by
  simp [scanBest, helig, hpk]

/-- The host-selection loop takes an eligible entry whose peek beats the
accumulator. -/
theorem scanBest_cons_take (now : Nat) (e : String × HostQueue)
    (rest : List (String × HostQueue)) (acc : Option String × Int) (q : Url × Int)
    (helig : e.2.next_allowed_at ≤ now) (hpk : peekQ e.2.queue = some q)
    (hgt : q.2 > acc.2) :
    scanBest now (e :: rest) acc = scanBest now rest (some e.1, q.2) := by
  simp [scanBest, helig, hpk, hgt]

/-- The host-selection loop keeps the accumulator over an eligible entry
whose peek does not beat it. -/
theorem scanBest_cons_keep (now : Nat) (e : String × HostQueue)
    (rest : List (String × HostQueue)) (acc : Option String × Int) (q : Url × Int)
    (helig : e.2.next_allowed_at ≤ now) (hpk : peekQ e.2.queue = some q)
    (hgt : ¬ q.2 > acc.2) :
    scanBest now (e :: rest) acc = scanBest now rest acc := by
  simp [scanBest, helig, hpk, hgt]

/-- What the host-selection loop computes: either no eligible peek beats the
accumulator and it returns the accumulator, or it returns the first eligible
entry whose peek priority strictly exceeds the accumulator and every later
eligible peek. -/
theorem scanBest_char (now : Nat) :
    ∀ (l : List (String × HostQueue)) (acc : Option String × Int),
      (scanBest now l acc = acc ∧
        ∀ e ∈ l, e.2.next_allowed_at ≤ now → ∀ q, peekQ e.2.queue = some q →
          q.2 ≤ acc.2) ∨
      (∃ e ∈ l, e.2.next_allowed_at ≤ now ∧ ∃ q, peekQ e.2.queue = some q ∧
        scanBest now l acc = (some e.1, q.2) ∧ acc.2 < q.2 ∧
        ∀ e' ∈ l, e'.2.next_allowed_at ≤ now → ∀ q', peekQ e'.2.queue = some q' →
          q'.2 ≤ q.2) := by
  intro l
  induction l with
  | nil =>
    intro acc
    left
    exact ⟨rfl, by simp⟩
  | cons e rest ih =>
    intro acc
    by_cases helig : e.2.next_allowed_at ≤ now
    · rcases hpk : peekQ e.2.queue with _ | q
      · -- eligible but empty queue: the accumulator survives this entry
        rw [scanBest_cons_emptyQ now e rest acc helig hpk]
        rcases ih acc with ⟨heq, hbound⟩ | ⟨e', he', helig', q', hpk', heq, hlt, hmax⟩
        · left
          refine ⟨heq, ?_⟩
          intro e2 he2 helig2 q2 hpk2
          rcases List.mem_cons.mp he2 with rfl | htail
          · rw [hpk] at hpk2
            cases hpk2
          · exact hbound e2 htail helig2 q2 hpk2
        · right
          refine ⟨e', List.mem_cons_of_mem _ he', helig', q', hpk', heq, hlt, ?_⟩
          intro e2 he2 helig2 q2 hpk2
          rcases List.mem_cons.mp he2 with rfl | htail
          · rw [hpk] at hpk2
            cases hpk2
          · exact hmax e2 htail helig2 q2 hpk2
      · by_cases hgt : q.2 > acc.2
        · -- the entry takes over the accumulator
          rw [scanBest_cons_take now e rest acc q helig hpk hgt]
          rcases ih (some e.1, q.2) with ⟨heq, hbound⟩ | ⟨e', he', helig', q', hpk', heq, hlt, hmax⟩
          · right
            refine ⟨e, List.mem_cons_self _ _, helig, q, hpk, heq, hgt, ?_⟩
            intro e2 he2 helig2 q2 hpk2
            rcases List.mem_cons.mp he2 with rfl | htail
            · rw [hpk] at hpk2
              obtain rfl : q = q2 := by simpa using hpk2
              exact le_refl _
            · exact hbound e2 htail helig2 q2 hpk2
          · right
            refine ⟨e', List.mem_cons_of_mem _ he', helig', q', hpk', heq, lt_trans hgt hlt, ?_⟩
            intro e2 he2 helig2 q2 hpk2
            rcases List.mem_cons.mp he2 with rfl | htail
            · rw [hpk] at hpk2
              obtain rfl : q = q2 := by simpa using hpk2
              exact le_of_lt hlt
            · exact hmax e2 htail helig2 q2 hpk2
        · -- peek does not beat the accumulator
          rw [scanBest_cons_keep now e rest acc q helig hpk hgt]
          push_neg at hgt
          rcases ih acc with ⟨heq, hbound⟩ | ⟨e', he', helig', q', hpk', heq, hlt, hmax⟩
          · left
            refine ⟨heq, ?_⟩
            intro e2 he2 helig2 q2 hpk2
            rcases List.mem_cons.mp he2 with rfl | htail
            · rw [hpk] at hpk2
              obtain rfl : q = q2 := by simpa using hpk2
              exact hgt
            · exact hbound e2 htail helig2 q2 hpk2
          · right
            refine ⟨e', List.mem_cons_of_mem _ he', helig', q', hpk', heq, hlt, ?_⟩
            intro e2 he2 helig2 q2 hpk2
            rcases List.mem_cons.mp he2 with rfl | htail
            · rw [hpk] at hpk2
              obtain rfl : q = q2 := by simpa using hpk2
              exact le_trans hgt (le_of_lt hlt)
            · exact hmax e2 htail helig2 q2 hpk2
    · -- ineligible entry: skipped outright
      rw [scanBest_cons_ineligible now e rest acc helig]
      rcases ih acc with ⟨heq, hbound⟩ | ⟨e', he', helig', q', hpk', heq, hlt, hmax⟩
      · left
        refine ⟨heq, ?_⟩
        intro e2 he2 helig2 q2 hpk2
        rcases List.mem_cons.mp he2 with rfl | htail
        · exact absurd helig2 helig
        · exact hbound e2 htail helig2 q2 hpk2
      · right
        refine ⟨e', List.mem_cons_of_mem _ he', helig', q', hpk', heq, hlt, ?_⟩
        intro e2 he2 helig2 q2 hpk2
        rcases List.mem_cons.mp he2 with rfl | htail
        · exact absurd helig2 helig
        · exact hmax e2 htail helig2 q2 hpk2

/-- Claim C2: among host queues whose `next_allowed_at ≤ now`, `get_next_url`
pops the peek of a host of maximal peek priority, stamps that host with
`now + 1s` and decrements `size`; when every eligible host queue is empty it
returns `none` and leaves the frontier unchanged.  The key list of the
`DashMap` is duplicate-free, and the positive case assumes some eligible
peek priority is ≥ 0, as every priority `calculate_priority` produces is. -/
theorem get_next_url_spec (f : Frontier) (now : Nat)
    (hnd : (f.host_queues.map Prod.fst).Nodup) :
    ((∀ e ∈ f.host_queues, e.2.next_allowed_at ≤ now → peekQ e.2.queue = none) →
      f.get_next_url now = (none, f)) ∧
    (∀ e0 ∈ f.host_queues, e0.2.next_allowed_at ≤ now →
      ∀ q0, peekQ e0.2.queue = some q0 → 0 ≤ q0.2 →
      ∃ h hq q, (h, hq) ∈ f.host_queues ∧ hq.next_allowed_at ≤ now ∧
        peekQ hq.queue = some q ∧
        (∀ e' ∈ f.host_queues, e'.2.next_allowed_at ≤ now →
          ∀ q', peekQ e'.2.queue = some q' → q'.2 ≤ q.2) ∧
        f.get_next_url now =
          (some q.1,
            { f with
              host_queues := updateHost f.host_queues h
                { queue := hq.queue.erase q
                  next_allowed_at := now + politenessDelayMs }
              size := f.size - 1 })) := by
  constructor
  · intro hempty
    rcases scanBest_char now f.host_queues (none, i32Min) with
      ⟨heq, _⟩ | ⟨e, he, helig, q, hpk, _, _, _⟩
    · unfold Frontier.get_next_url
      rw [heq]
    · rw [hempty e he helig] at hpk
      cases hpk
  · intro e0 he0 helig0 q0 hpk0 hpos
    rcases scanBest_char now f.host_queues (none, i32Min) with
      ⟨_, hbound⟩ | ⟨e, he, helig, q, hpk, heq, _, hmax⟩
    · exfalso
      have := hbound e0 he0 helig0 q0 hpk0
      have hmin : i32Min < 0 := by decide
      simp only at this
      omega
    · have hlk : List.lookup e.1 f.host_queues = some e.2 :=
        lookup_of_mem_nodup e.1 e.2 f.host_queues hnd (by simpa using he)
      refine ⟨e.1, e.2, q, by simpa using he, helig, hpk, hmax, ?_⟩
      simp only [Frontier.get_next_url, heq, popQ, hlk, hpk]

/-- Witness for C2 at a concrete frontier: a single eligible host whose peek
has priority 1 is popped. -/
theorem get_next_url_spec_witness :
    ∃ h hq q,
      (h, hq) ∈ (Frontier.mk
        [("example.com", ⟨[(⟨"example.com", "/a", none, none⟩, 1)], 0⟩)]
        [⟨"example.com", "/a", none, none⟩] 1).host_queues ∧
      hq.next_allowed_at ≤ 5 ∧ peekQ hq.queue = some q ∧
      (∀ e' ∈ (Frontier.mk
          [("example.com", ⟨[(⟨"example.com", "/a", none, none⟩, 1)], 0⟩)]
          [⟨"example.com", "/a", none, none⟩] 1).host_queues,
        e'.2.next_allowed_at ≤ 5 →
        ∀ q', peekQ e'.2.queue = some q' → q'.2 ≤ q.2) ∧
      (Frontier.mk
        [("example.com", ⟨[(⟨"example.com", "/a", none, none⟩, 1)], 0⟩)]
        [⟨"example.com", "/a", none, none⟩] 1).get_next_url 5 =
        (some q.1,
          { Frontier.mk
              [("example.com", ⟨[(⟨"example.com", "/a", none, none⟩, 1)], 0⟩)]
              [⟨"example.com", "/a", none, none⟩] 1 with
            host_queues := updateHost (Frontier.mk
              [("example.com", ⟨[(⟨"example.com", "/a", none, none⟩, 1)], 0⟩)]
              [⟨"example.com", "/a", none, none⟩] 1).host_queues h
              { queue := hq.queue.erase q
                next_allowed_at := 5 + politenessDelayMs }
            size := (Frontier.mk
              [("example.com", ⟨[(⟨"example.com", "/a", none, none⟩, 1)], 0⟩)]
              [⟨"example.com", "/a", none, none⟩] 1).size - 1 }) :=
  (get_next_url_spec
      (Frontier.mk
        [("example.com", ⟨[(⟨"example.com", "/a", none, none⟩, 1)], 0⟩)]
        [⟨"example.com", "/a", none, none⟩] 1) 5 (by decide)).2
    ("example.com", ⟨[(⟨"example.com", "/a", none, none⟩, 1)], 0⟩)
    (by decide) (by decide) (⟨"example.com", "/a", none, none⟩, 1) (by decide)
    (by decide)

/-! ## Politeness across pop traces (`frontier.rs`)

A crawl is a sequence of timestamped frontier operations.  `run` replays
them from a starting frontier and records each successful pop with its
timestamp.  Two representation invariants of the `DashMap` tie the model
together: every queued URL sits under its own host key (`WF`), and the keys
are pairwise distinct (`ND`). -/

/-- Every queue entry lives under the key of its URL host. -/
def WF (f : Frontier) : Prop :=
  ∀ e ∈ f.host_queues, ∀ x ∈ e.2.queue, (x : Url × Int).1.host = e.1

/-- The host-map keys are pairwise distinct. -/
def ND (f : Frontier) : Prop := (f.host_queues.map Prod.fst).Nodup

/-- A timestamped frontier operation. -/
inductive Op where
  | add (url : Url) (scope : Scope) (is_sitemap : Bool)
  | pop

/-- Replay a list of timestamped operations, collecting the pop log. -/
def run : Frontier → List (Nat × Op) → Frontier × List (Nat × Url)
  | f, [] => (f, [])
  | f, (t, Op.add u scope sm) :: rest => run (f.add_url t u scope sm) rest
  | f, (t, Op.pop) :: rest =>
    ((run (f.get_next_url t).2 rest).1,
      match (f.get_next_url t).1 with
      | some u => (t, u) :: (run (f.get_next_url t).2 rest).2
      | none => (run (f.get_next_url t).2 rest).2)

/-- `add_url` preserves the host invariant. -/
theorem WF_add (f : Frontier) (now : Nat) (u : Url) (s : Scope) (b : Bool)
    (hwf : WF f) : WF (f.add_url now u s b) := by
  by_cases hstop : u ∈ f.seen_urls ∨ ¬ f.size < MAX_QUEUE_SIZE
  · rw [add_url_stop f now u s b hstop]
    exact hwf
  · rcases hlk : List.lookup u.host f.host_queues with _ | hq0
    · rw [add_url_eq_of_lookup_none f now u s b hstop hlk]
      intro e he x hx
      rcases List.mem_append.mp he with hold | hnew
      · exact hwf e hold x hx
      · obtain rfl : e = (u.host, _) := by simpa using hnew
        obtain rfl : x = (u, _) := by simpa using hx
        rfl
    · rw [add_url_eq_of_lookup_some f now u s b hq0 hstop hlk]
      intro e he x hx
      rcases mem_updateHost u.host _ f.host_queues e he with hold | rfl
      · exact hwf e hold x hx
      · rcases List.mem_append.mp hx with hxold | hxnew
        · exact hwf (u.host, hq0) (mem_of_lookup_some u.host hq0 f.host_queues hlk)
            x hxold
        · obtain rfl : x = (u, _) := by simpa using hxnew
          rfl

/-- `add_url` preserves key distinctness. -/
theorem ND_add (f : Frontier) (now : Nat) (u : Url) (s : Scope) (b : Bool)
    (hnd : ND f) : ND (f.add_url now u s b) := by
  by_cases hstop : u ∈ f.seen_urls ∨ ¬ f.size < MAX_QUEUE_SIZE
  · rw [add_url_stop f now u s b hstop]
    exact hnd
  · rcases hlk : List.lookup u.host f.host_queues with _ | hq0
    · rw [add_url_eq_of_lookup_none f now u s b hstop hlk]
      show ((f.host_queues ++ _).map Prod.fst).Nodup
      rw [List.map_append]
      refine hnd.append (List.nodup_singleton _) ?_
      intro a ha hb
      obtain rfl : a = u.host := by simpa using hb
      exact not_mem_keys_of_lookup_none u.host f.host_queues hlk ha
    · rw [add_url_eq_of_lookup_some f now u s b hq0 hstop hlk]
      show ((updateHost f.host_queues u.host _).map Prod.fst).Nodup
      rw [updateHost_keys]
      exact hnd

/-- What a pop does, in closed form: either nothing was eligible and the
frontier is untouched, or the peek `(u, p)` of the host of `u` — eligible at
`now` — is returned, that host is re-stamped and its queue loses the popped
entry, and `size` drops by one. -/
theorem pop_char (f : Frontier) (now : Nat) (hwf : WF f) (hnd : ND f) :
    f.get_next_url now = (none, f) ∨
    ∃ u p hq, f.get_next_url now =
        (some u,
          { f with
            host_queues := updateHost f.host_queues u.host
              { queue := hq.queue.erase (u, p)
                next_allowed_at := now + politenessDelayMs }
            size := f.size - 1 }) ∧
      List.lookup u.host f.host_queues = some hq ∧
      hq.next_allowed_at ≤ now ∧ peekQ hq.queue = some (u, p) := by
  rcases scanBest_char now f.host_queues (none, i32Min) with
    ⟨heq, _⟩ | ⟨e, he, helig, q, hpk, heq, _, _⟩
  · left
    simp [Frontier.get_next_url, heq]
  · right
    have hlk : List.lookup e.1 f.host_queues = some e.2 :=
      lookup_of_mem_nodup e.1 e.2 f.host_queues hnd (by simpa using he)
    have hqmem : q ∈ e.2.queue := peekQ_mem _ _ hpk
    have hhost : q.1.host = e.1 := hwf e he q hqmem
    refine ⟨q.1, q.2, e.2, ?_, by rw [hhost]; exact hlk, helig, hpk⟩
    rw [hhost]
    simp only [Frontier.get_next_url, heq, popQ, hlk, hpk]

/-- A pop preserves the host invariant. -/
theorem WF_pop (f : Frontier) (now : Nat) (hwf : WF f) (hnd : ND f) :
    WF ((f.get_next_url now).2) := by
  rcases pop_char f now hwf hnd with heq | ⟨u, p, hq, heq, hlk, _, _⟩
  · rw [heq]
    exact hwf
  · rw [heq]
    intro e he x hx
    rcases mem_updateHost _ _ _ e he with hold | rfl
    · exact hwf e hold x hx
    · exact hwf (u.host, hq) (mem_of_lookup_some _ _ _ hlk) x
        (List.mem_of_mem_erase hx)

/-- A pop preserves key distinctness. -/
theorem ND_pop (f : Frontier) (now : Nat) (hwf : WF f) (hnd : ND f) :
    ND ((f.get_next_url now).2) := by
  rcases pop_char f now hwf hnd with heq | ⟨u, p, hq, heq, _, _, _⟩
  · rw [heq]
    exact hnd
  · rw [heq]
    show ((updateHost f.host_queues u.host _).map Prod.fst).Nodup
    rw [updateHost_keys]
    exact hnd

/-- `add_url` never changes the politeness stamp of a host that already has
a queue. -/
theorem add_lookup_naa (f : Frontier) (now : Nat) (u : Url) (s : Scope)
    (b : Bool) (h : String) (hq : HostQueue)
    (hlk : List.lookup h f.host_queues = some hq) :
    ∃ hq₂, List.lookup h (f.add_url now u s b).host_queues = some hq₂ ∧
      hq₂.next_allowed_at = hq.next_allowed_at := by
  by_cases hstop : u ∈ f.seen_urls ∨ ¬ f.size < MAX_QUEUE_SIZE
  · rw [add_url_stop f now u s b hstop]
    exact ⟨hq, hlk, rfl⟩
  · rcases hlk2 : List.lookup u.host f.host_queues with _ | hq0
    · rw [add_url_eq_of_lookup_none f now u s b hstop hlk2]
      exact ⟨hq, by rw [lookup_append_some h _ _ (by rw [hlk]; rfl)]; exact hlk, rfl⟩
    · rw [add_url_eq_of_lookup_some f now u s b hq0 hstop hlk2]
      by_cases hh : h = u.host
      · subst hh
        obtain rfl : hq0 = hq := by
          rw [hlk] at hlk2
          exact (Option.some.inj hlk2).symm
        exact ⟨_, lookup_updateHost_self u.host _ f.host_queues (by rw [hlk]; rfl), rfl⟩
      · rw [lookup_updateHost_ne h u.host _ hh]
        exact ⟨hq, hlk, rfl⟩

/-- How a pop moves the politeness stamp of a host: it never decreases, and
when the popped URL belongs to that host the host was eligible and the new
stamp is `now + 1s`. -/
theorem pop_lookup_naa (f : Frontier) (now : Nat) (h : String) (hq : HostQueue)
    (hwf : WF f) (hnd : ND f)
    (hlk : List.lookup h f.host_queues = some hq) :
    ∃ hq₂, List.lookup h ((f.get_next_url now).2).host_queues = some hq₂ ∧
      hq.next_allowed_at ≤ hq₂.next_allowed_at ∧
      ∀ u, (f.get_next_url now).1 = some u → u.host = h →
        hq.next_allowed_at ≤ now ∧
        hq₂.next_allowed_at = now + politenessDelayMs := by
  rcases pop_char f now hwf hnd with heq | ⟨u0, p, hq0, heq, hlk0, helig0, _⟩
  · refine ⟨hq, ?_, le_refl _, ?_⟩
    · rw [heq]
      exact hlk
    · intro u hu
      rw [heq] at hu
      simp at hu
  · by_cases hh : u0.host = h
    · obtain rfl : hq0 = hq := by
        rw [hh] at hlk0
        rw [hlk0] at hlk
        exact Option.some.inj hlk
      refine ⟨{ queue := hq0.queue.erase (u0, p),
                next_allowed_at := now + politenessDelayMs }, ?_, ?_, ?_⟩
      · rw [heq]
        show List.lookup h (updateHost f.host_queues u0.host _) = _
        rw [hh]
        exact lookup_updateHost_self h _ f.host_queues (by rw [hlk]; rfl)
      · exact le_trans helig0 (Nat.le_add_right _ _)
      · intro u hu _
        exact ⟨helig0, rfl⟩
    · refine ⟨hq, ?_, le_refl _, ?_⟩
      · rw [heq]
        show List.lookup h (updateHost f.host_queues u0.host _) = some hq
        rw [lookup_updateHost_ne h u0.host _ (fun hx => hh hx.symm)]
        exact hlk
      · intro u hu huh
        rw [heq] at hu
        obtain rfl : u0 = u := by simpa using hu
        exact absurd huh hh

/-- Every pop of a host recorded while replaying `ops` happens no earlier
than the politeness stamp that host carries at the start. -/
theorem run_pops_ge_naa :
    ∀ (ops : List (Nat × Op)) (f : Frontier), WF f → ND f →
      ∀ (h : String) (hq : HostQueue),
        List.lookup h f.host_queues = some hq →
      ∀ t u, (t, u) ∈ (run f ops).2 → u.host = h →
        hq.next_allowed_at ≤ t := by
  intro ops
  induction ops with
  | nil =>
    intro f _ _ h hq _ t u hmem
    simp [run] at hmem
  | cons e rest ih =>
    obtain ⟨t0, op⟩ := e
    intro f hwf hnd h hq hlk t u hmem hhost
    cases op with
    | add u0 s0 b0 =>
      simp only [run] at hmem
      obtain ⟨hq₂, hlk₂, hnaa₂⟩ := add_lookup_naa f t0 u0 s0 b0 h hq hlk
      have := ih (f.add_url t0 u0 s0 b0) (WF_add f t0 u0 s0 b0 hwf)
        (ND_add f t0 u0 s0 b0 hnd) h hq₂ hlk₂ t u hmem hhost
      omega
    | pop =>
      simp only [run] at hmem
      obtain ⟨hq₂, hlk₂, hmono, hpopped⟩ := pop_lookup_naa f t0 h hq hwf hnd hlk
      have hwf' := WF_pop f t0 hwf hnd
      have hnd' := ND_pop f t0 hwf hnd
      rcases hr : (f.get_next_url t0).1 with _ | u0
      · rw [hr] at hmem
        exact le_trans hmono (ih _ hwf' hnd' h hq₂ hlk₂ t u hmem hhost)
      · rw [hr] at hmem
        rcases List.mem_cons.mp hmem with heq2 | htail
        · obtain ⟨rfl, rfl⟩ : t = t0 ∧ u = u0 := by
            have h1 := congrArg Prod.fst heq2
            have h2 := congrArg Prod.snd heq2
            exact ⟨h1, h2⟩
          exact (hpopped u hr hhost).1
        · exact le_trans hmono (ih _ hwf' hnd' h hq₂ hlk₂ t u htail hhost)

/-- Politeness over a replay from any well-formed frontier: two logged pops
of the same host are at least one politeness delay apart. -/
theorem run_politeness_aux :
    ∀ (ops : List (Nat × Op)) (f : Frontier), WF f → ND f →
      ∀ (pre mid post : List (Nat × Url)) (t1 t2 : Nat) (u1 u2 : Url),
        (run f ops).2 = pre ++ (t1, u1) :: mid ++ (t2, u2) :: post →
        u1.host = u2.host → t1 + politenessDelayMs ≤ t2 := by
  intro ops
  induction ops with
  | nil =>
    intro f _ _ pre mid post t1 t2 u1 u2 hlog _
    simp only [run] at hlog
    have := congrArg List.length hlog
    simp [List.length_append] at this
    omega
  | cons e rest ih =>
    obtain ⟨t0, op⟩ := e
    intro f hwf hnd pre mid post t1 t2 u1 u2 hlog hhost
    cases op with
    | add u0 s0 b0 =>
      simp only [run] at hlog
      exact ih (f.add_url t0 u0 s0 b0) (WF_add f t0 u0 s0 b0 hwf)
        (ND_add f t0 u0 s0 b0 hnd) pre mid post t1 t2 u1 u2 hlog hhost
    | pop =>
      simp only [run] at hlog
      have hwf' := WF_pop f t0 hwf hnd
      have hnd' := ND_pop f t0 hwf hnd
      rcases hr : (f.get_next_url t0).1 with _ | u0
      · rw [hr] at hlog
        exact ih _ hwf' hnd' pre mid post t1 t2 u1 u2 hlog hhost
      · rw [hr] at hlog
        cases pre with
        | nil =>
          simp only [List.nil_append] at hlog
          obtain ⟨hhead, htail⟩ := List.cons_eq_cons.mp hlog
          obtain ⟨rfl, rfl⟩ : t0 = t1 ∧ u0 = u1 :=
            ⟨congrArg Prod.fst hhead, congrArg Prod.snd hhead⟩
          rcases pop_char f t0 hwf hnd with heqn | ⟨u, p, hq, heqs, hlk, helig, _⟩
          · rw [heqn] at hr
            simp at hr
          · obtain rfl : u = u0 := by
              rw [heqs] at hr
              simpa using hr
            have hlknew : List.lookup u.host
                ((f.get_next_url t0).2).host_queues =
                some { queue := hq.queue.erase (u, p),
                       next_allowed_at := t0 + politenessDelayMs } := by
              rw [heqs]
              exact lookup_updateHost_self u.host _ f.host_queues (by rw [hlk]; rfl)
            have hmem : (t2, u2) ∈ (run (f.get_next_url t0).2 rest).2 := by
              rw [htail]
              exact List.mem_append.mpr (Or.inr (List.mem_cons_self _ _))
            have := run_pops_ge_naa rest (f.get_next_url t0).2 hwf' hnd'
              u.host _ hlknew t2 u2 hmem hhost.symm
            simpa using this
        | cons p0 pre' =>
          obtain ⟨_, htail⟩ := List.cons_eq_cons.mp hlog
          exact ih _ hwf' hnd' pre' mid post t1 t2 u1 u2 htail hhost

/-- Claim C4: in any replayed crawl starting from the empty frontier, two
pops that return URLs of the same host are at least one second (1000 ms of
the `Instant` timeline) apart. -/
theorem pops_same_host_one_second_apart (ops : List (Nat × Op))
    (pre mid post : List (Nat × Url)) (t1 t2 : Nat) (u1 u2 : Url)
    (hlog : (run Frontier.new ops).2 = pre ++ (t1, u1) :: mid ++ (t2, u2) :: post)
    (hhost : u1.host = u2.host) : t1 + 1000 ≤ t2 :=
  run_politeness_aux ops Frontier.new
    (by intro e he; simp [Frontier.new] at he)
    (by simp [ND, Frontier.new])
    pre mid post t1 t2 u1 u2 hlog hhost

/-- Witness for C4 on a concrete trace: two URLs of the same host are added
at time 0, popped at times 0 and 1000, and the theorem yields
`0 + 1000 ≤ 1000`. -/
theorem pops_same_host_one_second_apart_witness : (0 : Nat) + 1000 ≤ 1000 :=
  pops_same_host_one_second_apart
    [(0, .add ⟨"example.com", "/a", none, none⟩ ⟨""⟩ false),
     (0, .add ⟨"example.com", "/b", none, none⟩ ⟨""⟩ false),
     (0, .pop), (1000, .pop)]
    [] [] [] 0 1000
    ⟨"example.com", "/a", none, none⟩ ⟨"example.com", "/b", none, none⟩
    (by decide) rfl

/-! ## Sitemap staging (`sitemap.rs`)

`SitemapFetcher::process_staged_urls` loads the frontier through
`Storage::get_frontier` — a placeholder that returns `Frontier::new()` —
walks the pending staged rows, computes a seeding priority it binds to the
unused `_priority`, explicitly skips frontier admission ("For now, skip
adding to frontier since we need scope info"), marks each row processed and
saves the frontier back.  The RFC-3339 parser lives in the external
`chrono` crate, so it is a parameter returning an optional Unix timestamp;
`now` is the current Unix timestamp. -/

structure StagedUrl where
  url : String
  status : String
  lastmod : Option String
deriving DecidableEq

/-- The seeding priority computed inside the loop: `2.0` when `lastmod`
parses as RFC-3339 and is later than fourteen days before `now`, `1.0`
otherwise.  The exact f64 values are represented in `ℚ`. -/
def seedingPriority (parse : String → Option Int) (now : Int) :
    Option String → ℚ
  | some lastmod_str =>
    match parse lastmod_str with
    | some lastmod => if now - 14 * 86400 < lastmod then 2 else 1
    | none => 1
  | none => 1

/-- `process_staged_urls`: returns the frontier it saves at the end and the
status updates it issues.  The subexpression bound and discarded mirrors the
unused `_priority` of the source. -/
def process_staged_urls (parse : String → Option Int) (now : Int)
    (staged : List StagedUrl) : Frontier × List (String × String) :=
  let frontier := Frontier.new
  (frontier,
    staged.map fun su =>
      let _priority := seedingPriority parse now su.lastmod
      (su.url, "processed"))

/-- Claim C8: `process_staged()` admits no URL into the frontier — the
saved frontier is the empty placeholder one regardless of the pending rows —
while each row is still marked processed; evaluated on the concrete pending
row `https://example.com/page`. -/
theorem process_staged_skips_frontier_admission :
    (∀ parse now staged,
      (process_staged_urls parse now staged).1 = Frontier.new) ∧
    (process_staged_urls (fun _ => none) 0
        [⟨"https://example.com/page", "pending", none⟩]).2
      = [("https://example.com/page", "processed")] ∧
    seedingPriority (fun _ => none) 0 none = 1 :=
  ⟨fun _ _ _ => rfl, rfl, rfl⟩

/-! ## URL canonicalization (`deduplication.rs`, `canonicalize_url`)

The function lowercases the host, clears the fragment, re-parses the query
into percent-decoded `(name, value)` pairs (the url crate's `query_pairs`:
split on `&`, drop empty segments, split each at the first `=`, turn `+`
into space, percent-decode), sorts the pairs, rewrites them as `k=v`
joined by `&`, and stores the result through `set_query`, which
percent-encodes the special-scheme query set (controls, DEL and non-ASCII,
space, `"`, `#`, `<`, `>` and the apostrophe, U+0027).  The byte-level
operations are modelled on characters, which coincides with the crate on
ASCII input; `to_lowercase` is modelled by `Char.toLower`, its ASCII
restriction. -/

/-- Value of a hexadecimal digit, for percent decoding. -/
def hexVal (c : Char) : Option Nat :=
  if 48 ≤ c.toNat ∧ c.toNat ≤ 57 then some (c.toNat - 48)
  else if 97 ≤ c.toNat ∧ c.toNat ≤ 102 then some (c.toNat - 87)
  else if 65 ≤ c.toNat ∧ c.toNat ≤ 70 then some (c.toNat - 55)
  else none

/-- Percent-decoding: a valid `%XY` escape becomes its byte, an invalid one
is kept verbatim and decoding resumes at the following character.  The
lookahead makes the recursion non-structural, so it runs on a fuel counter;
`percentDecode` supplies the list length, which the recursion never
exhausts. -/
def percentDecodeAux : Nat → List Char → List Char
  | 0, l => l
  | _ + 1, [] => []
  | fuel + 1, c :: rest =>
    if c = '%' then
      match rest with
      | h1 :: h2 :: rest2 =>
        match hexVal h1, hexVal h2 with
        | some a, some b => Char.ofNat (16 * a + b) :: percentDecodeAux fuel rest2
        | _, _ => c :: percentDecodeAux fuel (h1 :: h2 :: rest2)
      | _ => c :: percentDecodeAux fuel rest
    else c :: percentDecodeAux fuel rest

/-- Percent-decoding of a full component. -/
def percentDecode (l : List Char) : List Char := percentDecodeAux l.length l

/-- Decoding of one form-urlencoded component: `+` becomes space, then
percent-decode. -/
def decodeComponent (s : List Char) : String :=
  String.mk (percentDecode (s.map fun c => if c = '+' then ' ' else c))

/-- Split a character list on a separator, keeping empty segments. -/
def splitSep (sep : Char) : List Char → List (List Char)
  | [] => [[]]
  | c :: rest =>
    match splitSep sep rest with
    | [] => if c = sep then [[], []] else [[c]]
    | s :: ss => if c = sep then [] :: s :: ss else (c :: s) :: ss

/-- Split a segment at its first `=`; with no `=` the value is empty
(`splitn(2, '=')`). -/
def splitFirstEq : List Char → List Char × List Char
  | [] => ([], [])
  | c :: rest =>
    if c = '=' then ([], rest)
    else
      let r := splitFirstEq rest
      (c :: r.1, r.2)

/-- `Url::query_pairs` on a raw query string: split on `&`, skip empty
segments, split each segment at the first `=`, decode both sides. -/
def parseQueryPairs (q : List Char) : List (String × String) :=
  (splitSep '&' q).filterMap fun seg =>
    if seg.isEmpty then none
    else
      some (decodeComponent (splitFirstEq seg).1, decodeComponent (splitFirstEq seg).2)

/-- Byte-lexicographic comparison of character lists (Rust's `Ord` on
`String` compares UTF-8 bytes; UTF-8 preserves codepoint order, so the
codepoint comparison is the same relation). -/
def charListLt : List Char → List Char → Bool
  | _, [] => false
  | [], _ :: _ => true
  | a :: as, b :: bs =>
    if a.toNat < b.toNat then true
    else if b.toNat < a.toNat then false
    else charListLt as bs

/-- The derived `Ord` on `(String, String)` that `pairs.sort()` uses:
lexicographic on the components. -/
def pairLe (a b : String × String) : Prop :=
  charListLt a.1.data b.1.data = true ∨
    (a.1 = b.1 ∧ (charListLt a.2.data b.2.data = true ∨ a.2 = b.2))

instance : DecidableRel pairLe := fun a b => by
  unfold pairLe
  infer_instance

/-- `pairs.sort()`: Rust's stable sort; since `pairLe` is antisymmetric, the
sorted list is unique and insertion sort computes it. -/
def sortPairs (pairs : List (String × String)) : List (String × String) :=
  List.insertionSort pairLe pairs

/-- The special-scheme query percent-encode set of the url crate: C0
controls, DEL and everything non-ASCII, space, `"`, `#`, `<`, `>`, and the
apostrophe (U+0027, since http is a special scheme). -/
def inQueryEncodeSet (c : Char) : Bool :=
  c.toNat < 0x20 || 0x7e < c.toNat || c = ' ' || c = '"' || c = '#' ||
    c = '<' || c = '>' || c.toNat = 39

/-- Upper-case hexadecimal digit, as the percent encoder emits. -/
def hexDigitUpper (n : Nat) : Char :=
  if n < 10 then Char.ofNat (48 + n) else Char.ofNat (55 + n)

/-- Percent-encode one character of the query serialization, byte by byte
over its UTF-8 encoding. -/
def encodeQueryChar (c : Char) : List Char :=
  if inQueryEncodeSet c then
    ((utf8Char c).map fun b => ['%', hexDigitUpper (b / 16), hexDigitUpper (b % 16)]).flatten
  else [c]

/-- The query serialization `set_query(Some(..))` stores. -/
def encodeQuery (s : List Char) : List Char := (s.map encodeQueryChar).flatten

/-- `format!("{}={}", k, v)` for each pair, joined with `&`
(`join("&")`). -/
def joinSep (sep : Char) : List (List Char) → List Char
  | [] => []
  | [s] => s
  | s :: ss => s ++ sep :: joinSep sep ss

/-- The new query string built from the sorted pairs. -/
def writeQuery (pairs : List (String × String)) : List Char :=
  joinSep '&' (pairs.map fun p => p.1.data ++ '=' :: p.2.data)

/-- `host.to_lowercase()`, ASCII restriction. -/
def toLowerStr (s : String) : String := String.mk (s.data.map Char.toLower)

/-- `url.query_pairs().into_owned().collect()`. -/
def urlQueryPairs (u : Url) : List (String × String) :=
  match u.query with
  | some q => parseQueryPairs q.data
  | none => []

/-- `deduplication::canonicalize_url`: lowercase the host, strip the
fragment, sort the decoded query pairs and rewrite them; an empty rewrite
removes the query. -/
def canonicalize_url (u : Url) : Url :=
  let new_query := writeQuery (sortPairs (urlQueryPairs u))
  { host := toLowerStr u.host
    path := u.path
    query := if ¬ new_query.isEmpty then some (String.mk (encodeQuery new_query))
             else none
    fragment := none }

/-- Claim C9, counterexample: for `http://example.com/?a=%26` one
canonicalization writes the query `a=&` (the decoded value `&` is written
bare, `&` not being in the encode set), and a second canonicalization
re-parses that as the pair `("a", "")` and writes `a=` — so canonicalize ∘
canonicalize ≠ canonicalize at this URL. -/
theorem canonicalize_url_not_idempotent :
    canonicalize_url (canonicalize_url ⟨"example.com", "/", some "a=%26", none⟩)
      ≠ canonicalize_url ⟨"example.com", "/", some "a=%26", none⟩ := by
  decide

/-! ### The pair order is a total preorder

`Vec::sort` on `(String, String)` uses the derived lexicographic `Ord`;
the lemmas below give totality, transitivity and antisymmetry of the
modelled relation, so the sorted list is unique and sorting a sorted list
is the identity. -/

/-- Characters with equal codepoints are equal. -/
theorem char_eq_of_toNat_eq {a b : Char} (h : a.toNat = b.toNat) : a = b := by
  have := congrArg Char.ofNat h
  simpa using this

theorem charListLt_self_eq_false : ∀ l : List Char, charListLt l l = false := by
  intro l
  induction l with
  | nil => rfl
  | cons a as ih => simp [charListLt, ih]

theorem charListLt_asymm :
    ∀ a b : List Char, charListLt a b = true → charListLt b a = false := by
  intro a
  induction a with
  | nil =>
    intro b _
    cases b <;> rfl
  | cons x as ih =>
    intro b h1
    cases b with
    | nil => simp [charListLt] at h1
    | cons y bs =>
      by_cases hxy : x.toNat < y.toNat
      · simp [charListLt, hxy, Nat.lt_asymm hxy, Nat.not_lt_of_lt hxy]
      · by_cases hyx : y.toNat < x.toNat
        · simp [charListLt, hxy, hyx] at h1
        · simp only [charListLt, if_neg hxy, if_neg hyx] at h1
          simp [charListLt, hxy, hyx, ih bs h1]

theorem charListLt_eq_of_not :
    ∀ a b : List Char, charListLt a b = false → charListLt b a = false → a = b := by
  intro a
  induction a with
  | nil =>
    intro b h1 _
    cases b with
    | nil => rfl
    | cons y bs => simp [charListLt] at h1
  | cons x as ih =>
    intro b h1 h2
    cases b with
    | nil => simp [charListLt] at h2
    | cons y bs =>
      by_cases hxy : x.toNat < y.toNat
      · simp [charListLt, hxy] at h1
      · by_cases hyx : y.toNat < x.toNat
        · simp [charListLt, hyx] at h2
        · simp only [charListLt, if_neg hxy, if_neg hyx] at h1 h2
          have hx : x = y := char_eq_of_toNat_eq (by omega)
          rw [hx, ih bs h1 h2]

theorem charListLt_trans :
    ∀ a b c : List Char, charListLt a b = true → charListLt b c = true →
      charListLt a c = true := by
  intro a
  induction a with
  | nil =>
    intro b c h1 h2
    cases b with
    | nil => simp [charListLt] at h1
    | cons y bs =>
      cases c with
      | nil => simp [charListLt] at h2
      | cons z cs => rfl
  | cons x as ih =>
    intro b c h1 h2
    cases b with
    | nil => simp [charListLt] at h1
    | cons y bs =>
      cases c with
      | nil => simp [charListLt] at h2
      | cons z cs =>
        by_cases hxy : x.toNat < y.toNat
        · by_cases hyz : y.toNat < z.toNat
          · simp [charListLt, show x.toNat < z.toNat by omega]
          · by_cases hzy : z.toNat < y.toNat
            · simp [charListLt, hyz, hzy] at h2
            · have : y.toNat = z.toNat := by omega
              simp [charListLt, show x.toNat < z.toNat by omega]
        · by_cases hyx : y.toNat < x.toNat
          · simp [charListLt, hxy, hyx] at h1
          · have hxyeq : x.toNat = y.toNat := by omega
            simp only [charListLt, if_neg hxy, if_neg hyx] at h1
            by_cases hyz : y.toNat < z.toNat
            · simp [charListLt, show x.toNat < z.toNat by omega]
            · by_cases hzy : z.toNat < y.toNat
              · simp [charListLt, hyz, hzy] at h2
              · simp only [charListLt, if_neg hyz, if_neg hzy] at h2
                simp only [charListLt, if_neg (show ¬ x.toNat < z.toNat by omega),
                  if_neg (show ¬ z.toNat < x.toNat by omega)]
                exact ih bs cs h1 h2

/-- Strings with the same character data are equal. -/
theorem string_eq_of_data_eq {s t : String} (h : s.data = t.data) : s = t := by
  cases s
  cases t
  exact congrArg String.mk h

theorem pairLe_total : ∀ a b : String × String, pairLe a b ∨ pairLe b a := by
  intro a b
  by_cases h1 : charListLt a.1.data b.1.data = true
  · exact Or.inl (Or.inl h1)
  · by_cases h2 : charListLt b.1.data a.1.data = true
    · exact Or.inr (Or.inl h2)
    · have hfst : a.1 = b.1 := string_eq_of_data_eq
        (charListLt_eq_of_not _ _ (by simpa using h1) (by simpa using h2))
      by_cases h3 : charListLt a.2.data b.2.data = true
      · exact Or.inl (Or.inr ⟨hfst, Or.inl h3⟩)
      · by_cases h4 : charListLt b.2.data a.2.data = true
        · exact Or.inr (Or.inr ⟨hfst.symm, Or.inl h4⟩)
        · have hsnd : a.2 = b.2 := string_eq_of_data_eq
            (charListLt_eq_of_not _ _ (by simpa using h3) (by simpa using h4))

          exact Or.inl (Or.inr ⟨hfst, Or.inr hsnd⟩)

theorem pairLe_trans : ∀ a b c : String × String,
    pairLe a b → pairLe b c → pairLe a c := by
  intro a b c hab hbc
  rcases hab with hab1 | ⟨habe, hab2⟩
  · rcases hbc with hbc1 | ⟨hbce, _⟩
    · exact Or.inl (charListLt_trans _ _ _ hab1 hbc1)
    · exact Or.inl (hbce ▸ hab1)
  · rcases hbc with hbc1 | ⟨hbce, hbc2⟩
    · exact Or.inl (habe ▸ hbc1)
    · refine Or.inr ⟨habe.trans hbce, ?_⟩
      rcases hab2 with hab2 | hab2
      · rcases hbc2 with hbc2 | hbc2
        · exact Or.inl (charListLt_trans _ _ _ hab2 hbc2)
        · exact Or.inl (hbc2 ▸ hab2)
      · rcases hbc2 with hbc2 | hbc2
        · exact Or.inl (hab2 ▸ hbc2)
        · exact Or.inr (hab2.trans hbc2)

instance : IsTotal (String × String) pairLe := ⟨pairLe_total⟩

instance : IsTrans (String × String) pairLe := ⟨pairLe_trans⟩

/-! ### Round-trip lemmas for the query pipeline -/

/-- Characters a written pair may consist of without disturbing a re-parse:
nothing the query writer escapes, no separator (`&`, `=`), no `+` (decoded
to space) and no `%` (start of an escape). -/
def safeChar (c : Char) : Bool :=
  !inQueryEncodeSet c && !(c == '&') && !(c == '=') && !(c == '+') && !(c == '%')

theorem percentDecodeAux_no_pct : ∀ (fuel : Nat) (l : List Char),
    (∀ c ∈ l, c ≠ '%') → percentDecodeAux fuel l = l := by
  intro fuel
  induction fuel with
  | zero => intro l _; rfl
  | succ fuel ih =>
    intro l hp
    cases l with
    | nil => rfl
    | cons c rest =>
      have hc : c ≠ '%' := hp c (List.mem_cons_self _ _)
      simp only [percentDecodeAux, if_neg hc]
      rw [ih rest fun x hx => hp x (List.mem_cons_of_mem _ hx)]

theorem percentDecode_no_pct (l : List Char) (hp : ∀ c ∈ l, c ≠ '%') :
    percentDecode l = l :=
  percentDecodeAux_no_pct l.length l hp

theorem decodeComponent_id (s : List Char)
    (h : ∀ c ∈ s, c ≠ '+' ∧ c ≠ '%') : decodeComponent s = String.mk s := by
  unfold decodeComponent
  have hmap : (s.map fun c => if c = '+' then ' ' else c) = s := by
    induction s with
    | nil => rfl
    | cons c rest ih =>
      simp only [List.map, if_neg (h c (List.mem_cons_self _ _)).1,
        List.cons.injEq, true_and]
      exact ih fun x hx => h x (List.mem_cons_of_mem _ hx)
  rw [hmap, percentDecode_no_pct s fun c hc => (h c hc).2]

theorem splitSep_ne_nil (sep : Char) : ∀ l, splitSep sep l ≠ [] := by
  intro l
  cases l with
  | nil => simp [splitSep]
  | cons c rest =>
    simp only [splitSep]
    cases h : splitSep sep rest with
    | nil => by_cases hc : c = sep <;> simp [hc]
    | cons s ss => by_cases hc : c = sep <;> simp [hc]

theorem splitSep_no_sep (sep : Char) : ∀ l, (∀ c ∈ l, c ≠ sep) →
    splitSep sep l = [l] := by
  intro l
  induction l with
  | nil => intro _; rfl
  | cons c rest ih =>
    intro h
    have hc : c ≠ sep := h c (List.mem_cons_self _ _)
    rw [show splitSep sep (c :: rest) =
      match splitSep sep rest with
      | [] => if c = sep then [[], []] else [[c]]
      | s :: ss => if c = sep then [] :: s :: ss else (c :: s) :: ss from rfl]
    rw [ih fun x hx => h x (List.mem_cons_of_mem _ hx)]
    simp [hc]

theorem splitSep_append (sep : Char) (s t : List Char) (hs : ∀ c ∈ s, c ≠ sep) :
    splitSep sep (s ++ sep :: t) = s :: splitSep sep t := by
  induction s with
  | nil =>
    simp only [List.nil_append]
    rw [show splitSep sep (sep :: t) =
      match splitSep sep t with
      | [] => if sep = sep then [[], []] else [[sep]]
      | s :: ss => if sep = sep then [] :: s :: ss else (sep :: s) :: ss from rfl]
    cases h : splitSep sep t with
    | nil => exact absurd h (splitSep_ne_nil sep t)
    | cons s ss => simp
  | cons c s' ih =>
    have hc : c ≠ sep := hs c (List.mem_cons_self _ _)
    simp only [List.cons_append]
    rw [show splitSep sep (c :: (s' ++ sep :: t)) =
      match splitSep sep (s' ++ sep :: t) with
      | [] => if c = sep then [[], []] else [[c]]
      | s :: ss => if c = sep then [] :: s :: ss else (c :: s) :: ss from rfl]
    rw [ih fun x hx => hs x (List.mem_cons_of_mem _ hx)]
    simp [hc]

theorem splitSep_joinSep (sep : Char) : ∀ segs, segs ≠ [] →
    (∀ s ∈ segs, ∀ c ∈ s, c ≠ sep) →
    splitSep sep (joinSep sep segs) = segs := by
  intro segs
  induction segs with
  | nil => intro h; exact absurd rfl h
  | cons s ss ih =>
    intro _ hsafe
    cases ss with
    | nil =>
      simp only [joinSep]
      exact splitSep_no_sep sep s (hsafe s (List.mem_cons_self _ _))
    | cons s₂ ss₂ =>
      simp only [joinSep]
      rw [splitSep_append sep s _ (hsafe s (List.mem_cons_self _ _)),
        ih (List.cons_ne_nil _ _) fun x hx => hsafe x (List.mem_cons_of_mem _ hx)]

theorem splitFirstEq_append (k v : List Char) (hk : ∀ c ∈ k, c ≠ '=') :
    splitFirstEq (k ++ '=' :: v) = (k, v) := by
  induction k with
  | nil => simp [splitFirstEq]
  | cons c k' ih =>
    have hc : c ≠ '=' := hk c (List.mem_cons_self _ _)
    simp [splitFirstEq, hc, ih fun x hx => hk x (List.mem_cons_of_mem _ hx)]

theorem encodeQuery_id (l : List Char)
    (h : ∀ c ∈ l, inQueryEncodeSet c = false) : encodeQuery l = l := by
  induction l with
  | nil => rfl
  | cons c rest ih =>
    have hc : encodeQueryChar c = [c] := by
      simp [encodeQueryChar, h c (List.mem_cons_self _ _)]
    simp only [encodeQuery, List.map, List.flatten, hc]
    simpa [encodeQuery] using ih fun x hx => h x (List.mem_cons_of_mem _ hx)

theorem mem_joinSep (sep : Char) : ∀ segs (c : Char), c ∈ joinSep sep segs →
    c = sep ∨ ∃ s ∈ segs, c ∈ s := by
  intro segs
  induction segs with
  | nil =>
    intro c hc
    simp [joinSep] at hc
  | cons s ss ih =>
    intro c hc
    cases ss with
    | nil =>
      right
      exact ⟨s, List.mem_cons_self _ _, by simpa [joinSep] using hc⟩
    | cons s₂ ss₂ =>
      simp only [joinSep] at hc
      rcases List.mem_append.mp hc with h1 | h2
      · right
        exact ⟨s, List.mem_cons_self _ _, h1⟩
      · rcases List.mem_cons.mp h2 with rfl | h3
        · exact Or.inl rfl
        · rcases ih c h3 with h | ⟨s', hs', hc'⟩
          · exact Or.inl h
          · right
            exact ⟨s', List.mem_cons_of_mem _ hs', hc'⟩

theorem mem_writeQuery (ps : List (String × String)) (c : Char)
    (hc : c ∈ writeQuery ps) :
    c = '&' ∨ c = '=' ∨ ∃ p ∈ ps, c ∈ p.1.data ∨ c ∈ p.2.data := by
  unfold writeQuery at hc
  rcases mem_joinSep '&' _ c hc with h | ⟨s, hs, hcs⟩
  · exact Or.inl h
  · rcases List.mem_map.mp hs with ⟨p, hp, rfl⟩
    rcases List.mem_append.mp hcs with h1 | h2
    · exact Or.inr (Or.inr ⟨p, hp, Or.inl h1⟩)
    · rcases List.mem_cons.mp h2 with rfl | h3
      · exact Or.inr (Or.inl rfl)
      · exact Or.inr (Or.inr ⟨p, hp, Or.inr h3⟩)

/-- Structure eta for strings. -/
theorem string_mk_data (s : String) : String.mk s.data = s := by
  cases s
  rfl

/-- Unpacking `safeChar`. -/
theorem safeChar_spec (c : Char) (h : safeChar c = true) :
    inQueryEncodeSet c = false ∧ c ≠ '&' ∧ c ≠ '=' ∧ c ≠ '+' ∧ c ≠ '%' := by
  simp only [safeChar, Bool.and_eq_true, Bool.not_eq_true', beq_eq_false_iff_ne,
    ne_eq] at h
  exact ⟨h.1.1.1.1, h.1.1.1.2, h.1.1.2, h.1.2, h.2⟩

theorem parse_write_pairs : ∀ ps : List (String × String),
    (∀ p ∈ ps, ∀ c, (c ∈ p.1.data ∨ c ∈ p.2.data) → safeChar c = true) →
    ((ps.map fun p => p.1.data ++ '=' :: p.2.data).filterMap fun seg =>
      if seg.isEmpty then none
      else some (decodeComponent (splitFirstEq seg).1,
                 decodeComponent (splitFirstEq seg).2)) = ps := by
  intro ps
  induction ps with
  | nil => intro _; rfl
  | cons p ps' ih =>
    intro hsafe
    have hsp : ∀ c, (c ∈ p.1.data ∨ c ∈ p.2.data) → safeChar c = true :=
      hsafe p (List.mem_cons_self _ _)
    have hemp : (p.1.data ++ '=' :: p.2.data).isEmpty = false := by
      cases h : p.1.data <;> simp [h]
    have hsplit : splitFirstEq (p.1.data ++ '=' :: p.2.data) = (p.1.data, p.2.data) :=
      splitFirstEq_append _ _ fun c hc => (safeChar_spec c (hsp c (Or.inl hc))).2.2.1
    have hd1 : decodeComponent p.1.data = p.1 := by
      rw [decodeComponent_id p.1.data fun c hc =>
        ⟨(safeChar_spec c (hsp c (Or.inl hc))).2.2.2.1,
         (safeChar_spec c (hsp c (Or.inl hc))).2.2.2.2⟩]
    have hd2 : decodeComponent p.2.data = p.2 := by
      rw [decodeComponent_id p.2.data fun c hc =>
        ⟨(safeChar_spec c (hsp c (Or.inr hc))).2.2.2.1,
         (safeChar_spec c (hsp c (Or.inr hc))).2.2.2.2⟩]
    simp only [List.map, List.filterMap_cons, hemp, Bool.false_eq_true, if_false,
      hsplit, hd1, hd2]
    rw [ih fun q hq => hsafe q (List.mem_cons_of_mem _ hq)]

theorem writeQuery_cons_ne_nil (p : String × String) (ps : List (String × String)) :
    writeQuery (p :: ps) ≠ [] := by
  unfold writeQuery
  cases ps with
  | nil =>
    simp only [List.map, joinSep]
    cases h : p.1.data <;> simp [h]
  | cons q qs =>
    simp only [List.map, joinSep]
    simp

/-- `Char.toLower` on a small scalar keeps the codepoint. -/
theorem char_toNat_ofNat_of_small {n : Nat} (h : n < 0xd800) :
    (Char.ofNat n).toNat = n := by
  unfold Char.ofNat
  rw [dif_pos (Or.inl h)]
  rfl

theorem toLower_idem (c : Char) : (Char.toLower c).toLower = c.toLower := by
  simp only [Char.toLower]
  by_cases h : c.toNat ≥ 65 ∧ c.toNat ≤ 90
  · rw [if_pos h]
    have hv : (Char.ofNat (c.toNat + 32)).toNat = c.toNat + 32 :=
      char_toNat_ofNat_of_small (by omega)
    rw [if_neg (by rw [hv]; omega)]
  · rw [if_neg h, if_neg h]

theorem toLowerStr_idem (s : String) : toLowerStr (toLowerStr s) = toLowerStr s := by
  unfold toLowerStr
  apply congrArg String.mk
  show (s.data.map Char.toLower).map Char.toLower = _
  rw [List.map_map]
  exact List.map_congr_left fun c _ => toLower_idem c

theorem parseQueryPairs_writeQuery (ps : List (String × String)) (hne : ps ≠ [])
    (hsafe : ∀ p ∈ ps, ∀ c, (c ∈ p.1.data ∨ c ∈ p.2.data) → safeChar c = true) :
    parseQueryPairs (writeQuery ps) = ps := by
  unfold parseQueryPairs writeQuery
  have hsegs : (ps.map fun p => p.1.data ++ '=' :: p.2.data) ≠ [] := by
    simpa using hne
  have hsegsafe : ∀ s ∈ (ps.map fun p => p.1.data ++ '=' :: p.2.data),
      ∀ c ∈ s, c ≠ '&' := by
    intro s hs c hc
    rcases List.mem_map.mp hs with ⟨p, hp, rfl⟩
    rcases List.mem_append.mp hc with h1 | h2
    · exact (safeChar_spec c (hsafe p hp c (Or.inl h1))).2.1
    · rcases List.mem_cons.mp h2 with rfl | h3
      · decide
      · exact (safeChar_spec c (hsafe p hp c (Or.inr h3))).2.1
  rw [splitSep_joinSep '&' _ hsegs hsegsafe]
  exact parse_write_pairs ps hsafe

/-- Claim C9, amended: `canonicalize_url` is idempotent on every URL whose
decoded query pairs contain only safe characters — printable ASCII outside
the query encode set and none of `&`, `=`, `+`, `%`.  (The counterexample
above shows the restriction is needed: a decoded `&`, and likewise `+` or a
`%` starting a valid escape, changes meaning when written back bare.) -/
theorem canonicalize_url_idempotent (u : Url)
    (hsafe : ∀ p ∈ urlQueryPairs u,
      (∀ c ∈ p.1.data, safeChar c = true) ∧ (∀ c ∈ p.2.data, safeChar c = true)) :
    canonicalize_url (canonicalize_url u) = canonicalize_url u := by
  have hsafe2 : ∀ p ∈ urlQueryPairs u, ∀ c,
      (c ∈ p.1.data ∨ c ∈ p.2.data) → safeChar c = true := fun p hp c hc =>
    hc.elim (fun h => (hsafe p hp).1 c h) (fun h => (hsafe p hp).2 c h)
  have hsafe' : ∀ p ∈ sortPairs (urlQueryPairs u), ∀ c,
      (c ∈ p.1.data ∨ c ∈ p.2.data) → safeChar c = true := by
    intro p hp
    exact hsafe2 p ((List.mem_insertionSort pairLe).mp hp)
  have hsorted : List.Sorted pairLe (sortPairs (urlQueryPairs u)) :=
    List.sorted_insertionSort pairLe (urlQueryPairs u)
  rcases hq : sortPairs (urlQueryPairs u) with _ | ⟨p0, ps'⟩
  · have hcu : canonicalize_url u =
        { host := toLowerStr u.host, path := u.path, query := none
          fragment := none } := by
      unfold canonicalize_url
      rw [hq]
      rfl
    rw [hcu]
    have h1 : canonicalize_url
        { host := toLowerStr u.host, path := u.path, query := none
          fragment := none } =
        { host := toLowerStr (toLowerStr u.host), path := u.path, query := none
          fragment := none } := rfl
    rw [h1, toLowerStr_idem]
  · rw [hq] at hsafe' hsorted
    have hne : writeQuery (p0 :: ps') ≠ [] := writeQuery_cons_ne_nil p0 ps'
    have hbool : (writeQuery (p0 :: ps')).isEmpty = false := by
      cases hW : writeQuery (p0 :: ps') with
      | nil => exact absurd hW hne
      | cons a l => rfl
    have hencfree : ∀ c ∈ writeQuery (p0 :: ps'), inQueryEncodeSet c = false := by
      intro c hc
      rcases mem_writeQuery _ c hc with rfl | hrest
      · decide
      · rcases hrest with rfl | ⟨p, hp, hcp⟩
        · decide
        · exact (safeChar_spec c (hsafe' p hp c hcp)).1
    have henc : encodeQuery (writeQuery (p0 :: ps')) = writeQuery (p0 :: ps') :=
      encodeQuery_id _ hencfree
    have hsorted2 : sortPairs (p0 :: ps') = p0 :: ps' :=
      List.Sorted.insertionSort_eq hsorted
    have hcu : canonicalize_url u =
        { host := toLowerStr u.host, path := u.path
          query := some (String.mk (writeQuery (p0 :: ps'))), fragment := none } := by
      unfold canonicalize_url
      rw [hq]
      simp [hbool, henc]
    have hup : urlQueryPairs
        { host := toLowerStr u.host, path := u.path
          query := some (String.mk (writeQuery (p0 :: ps'))), fragment := none } =
        p0 :: ps' := by
      show parseQueryPairs (writeQuery (p0 :: ps')) = _
      exact parseQueryPairs_writeQuery _ (List.cons_ne_nil _ _) hsafe'
    have key : canonicalize_url
        { host := toLowerStr u.host, path := u.path
          query := some (String.mk (writeQuery (p0 :: ps'))), fragment := none } =
        { host := toLowerStr (toLowerStr u.host), path := u.path
          query := some (String.mk (writeQuery (p0 :: ps'))), fragment := none } := by
      unfold canonicalize_url
      rw [hup, hsorted2]
      simp [hbool, henc]
    rw [hcu, key, toLowerStr_idem]

/-- Witness for the amended C9 at a concrete URL: `http://Example.com/p?b=2&a=1`
canonicalizes to `http://example.com/p?a=1&b=2` and is then a fixed
point. -/
theorem canonicalize_url_idempotent_witness :
    canonicalize_url (canonicalize_url ⟨"Example.com", "/p", some "b=2&a=1", none⟩)
      = canonicalize_url ⟨"Example.com", "/p", some "b=2&a=1", none⟩ :=
  canonicalize_url_idempotent ⟨"Example.com", "/p", some "b=2&a=1", none⟩ (by decide)

end Crawlify
